import Mathlib

/-!
Verification of the spectral-to-perceived-color engine of the polyene
spectrometer repository.  The numeric code of the source (TypeScript) is
embedded over exact arithmetic: rationals for the table lookups and the
Riemann-sum integrator (which are closed under field operations), reals for
the transcendental parts (Gaussian bands, Beer-Lambert transmittance, gamma
companding).
-/

namespace Polyene

/-- Wavelength grid of the CIE tables, 400, 410, ..., 700 nm (31 samples),
built exactly as in the source: `Array.from({length: 31}, (_, i) => 400 + i * 10)`. -/
def WL : List ℚ := (List.range 31).map (fun i : ℕ => 400 + (i : ℚ) * 10)

/-- CIE 1931 2-degree color matching function samples for x-bar (source `CMF_X`). -/
def CMF_X : List ℚ :=
  [0.01431, 0.04351, 0.13438, 0.28390, 0.34828, 0.33620, 0.29080, 0.19536,
   0.09564, 0.03201, 0.00490, 0.00930, 0.06327, 0.16550, 0.29040, 0.43345,
   0.59450, 0.76210, 0.91630, 1.02630, 1.06220, 1.00260, 0.85445, 0.64240,
   0.44790, 0.28350, 0.16490, 0.08740, 0.04677, 0.02270, 0.01136]

/-- CIE 1931 2-degree color matching function samples for y-bar (source `CMF_Y`). -/
def CMF_Y : List ℚ :=
  [0.000396, 0.00121, 0.00400, 0.01160, 0.02300, 0.03800, 0.06000, 0.09098,
   0.13902, 0.20802, 0.32300, 0.50300, 0.71000, 0.86200, 0.95400, 0.99500,
   0.99500, 0.95200, 0.87000, 0.75700, 0.63100, 0.50300, 0.38100, 0.26500,
   0.17500, 0.10700, 0.06100, 0.03200, 0.01700, 0.00820, 0.00410]

/-- CIE 1931 2-degree color matching function samples for z-bar (source `CMF_Z`). -/
def CMF_Z : List ℚ :=
  [0.06785, 0.20740, 0.64560, 1.38560, 1.74710, 1.77210, 1.66920, 1.28760,
   0.81300, 0.46518, 0.27200, 0.15820, 0.07825, 0.04216, 0.02030, 0.00875,
   0.00390, 0.00210, 0.00165, 0.00110, 0.00078, 0.00057, 0.00042, 0.00030,
   0.00021, 0.00015, 0.00010, 0.00005, 0.00003, 0.000015, 0.000008]

/-- D65 relative spectral power distribution samples (source `D65`). -/
def D65 : List ℚ :=
  [82.75, 91.49, 93.43, 86.68, 104.86, 117.01, 117.81, 114.86, 115.92, 108.81,
   109.35, 107.80, 104.79, 107.69, 104.41, 104.05, 100.00, 96.33, 95.79, 88.69,
   90.02, 89.60, 87.70, 83.29, 83.70, 80.03, 80.21, 82.28, 78.28, 69.72, 71.61]

/-- Bracket search of `interp1`: the source loop
`let i = 0; while (i < xArr.length - 1 && xArr[i + 1] < x) i++` scans
`xArr[1], xArr[2], ...` and stops at the first entry not below `x`; applied to
`xArr.drop 1` this function returns the final value of `i`. -/
def bracketIdx (x : ℚ) : List ℚ → ℕ
  | [] => 0
  | a :: rest => if a < x then bracketIdx x rest + 1 else 0

/-- Piecewise-linear table lookup with edge clamping (source `interp1`). -/
def interp1 (xArr yArr : List ℚ) (x : ℚ) : ℚ :=
  if x ≤ xArr.headD 0 then yArr.headD 0
  else if xArr.getLastD 0 ≤ x then yArr.getLastD 0
  else
    let i := bracketIdx x (xArr.drop 1)
    let x0 := xArr.getD i 0
    let x1 := xArr.getD (i + 1) 0
    let y0 := yArr.getD i 0
    let y1 := yArr.getD (i + 1) 0
    y0 + (x - x0) / (x1 - x0) * (y1 - y0)

/-- Wavelengths visited by the integrator loop
`for (let nm = visibleMin; nm <= visibleMax; nm += step)` with `step = 5`:
`lo, lo + 5, ...` up to the last value not exceeding `hi`. -/
def sampleList (lo hi : ℚ) : List ℚ :=
  if lo ≤ hi then
    (List.range (⌊(hi - lo) / 5⌋.toNat + 1)).map (fun i : ℕ => lo + 5 * (i : ℚ))
  else []

/-- CIE tristimulus triple. -/
structure Tristimulus (K : Type) where
  X : K
  Y : K
  Z : K

/-- The source `integrateXYZ(visibleMin, visibleMax, T)`: accumulate
`illuminant * T(nm) * cmf` into X, Y, Z and `illuminant * ybar` into `Yw`
over the 5 nm grid, then scale by `1 / Yw` when `Yw > 0`.  The codomain `K`
is any linear ordered field; the sums are over the rational sample grid with
the table lookups cast into `K`. -/
def integrateXYZ (K : Type) [LinearOrderedField K]
    [DecidableRel ((· < ·) : K → K → Prop)]
    (visibleMin visibleMax : ℚ) (T : ℚ → K) : Tristimulus K :=
  let pts := sampleList visibleMin visibleMax
  let X := (pts.map (fun nm =>
    ((interp1 WL D65 nm : ℚ) : K) * T nm * ((interp1 WL CMF_X nm : ℚ) : K))).sum
  let Y := (pts.map (fun nm =>
    ((interp1 WL D65 nm : ℚ) : K) * T nm * ((interp1 WL CMF_Y nm : ℚ) : K))).sum
  let Z := (pts.map (fun nm =>
    ((interp1 WL D65 nm : ℚ) : K) * T nm * ((interp1 WL CMF_Z nm : ℚ) : K))).sum
  let Yw := (pts.map (fun nm =>
    ((interp1 WL D65 nm : ℚ) : K) * ((interp1 WL CMF_Y nm : ℚ) : K))).sum
  if 0 < Yw then ⟨X * (1 / Yw), Y * (1 / Yw), Z * (1 / Yw)⟩ else ⟨X, Y, Z⟩

/-- The integrator as described by the specification (claim C2): the same
fixed-step Riemann sums, scaled by `1 / Yw` when `Yw > 0`, and defined to be
black (X = Y = Z = 0) when `Yw = 0`. -/
def integrateXYZClaim (K : Type) [LinearOrderedField K]
    [DecidableRel ((· < ·) : K → K → Prop)]
    (visibleMin visibleMax : ℚ) (T : ℚ → K) : Tristimulus K :=
  let pts := sampleList visibleMin visibleMax
  let X := (pts.map (fun nm =>
    ((interp1 WL D65 nm : ℚ) : K) * T nm * ((interp1 WL CMF_X nm : ℚ) : K))).sum
  let Y := (pts.map (fun nm =>
    ((interp1 WL D65 nm : ℚ) : K) * T nm * ((interp1 WL CMF_Y nm : ℚ) : K))).sum
  let Z := (pts.map (fun nm =>
    ((interp1 WL D65 nm : ℚ) : K) * T nm * ((interp1 WL CMF_Z nm : ℚ) : K))).sum
  let Yw := (pts.map (fun nm =>
    ((interp1 WL D65 nm : ℚ) : K) * ((interp1 WL CMF_Y nm : ℚ) : K))).sum
  if 0 < Yw then ⟨X * (1 / Yw), Y * (1 / Yw), Z * (1 / Yw)⟩ else ⟨0, 0, 0⟩

/-- The call-site range clamping of `perceivedHex`:
`integrateXYZ(Math.max(visibleMin, 400), Math.min(visibleMax, 700), T)`. -/
def perceivedRangeXYZ (K : Type) [LinearOrderedField K]
    [DecidableRel ((· < ·) : K → K → Prop)]
    (visibleMin visibleMax : ℚ) (T : ℚ → K) : Tristimulus K :=
  integrateXYZ K (max visibleMin 400) (min visibleMax 700) T

/-! ### Lemmas about the bracket search -/

lemma bracketIdx_le_length (x : ℚ) (l : List ℚ) : bracketIdx x l ≤ l.length := by
  induction l with
  | nil => simp [bracketIdx]
  | cons a rest ih =>
    simp only [bracketIdx, List.length_cons]
    split
    · omega
    · omega

lemma le_getD_bracketIdx (x : ℚ) (l : List ℚ) (h : bracketIdx x l < l.length) :
    x ≤ l.getD (bracketIdx x l) 0 := by
  induction l with
  | nil => simp at h
  | cons a rest ih =>
    by_cases ha : a < x
    · have hb : bracketIdx x (a :: rest) = bracketIdx x rest + 1 := by
        simp [bracketIdx, ha]
      rw [hb] at h ⊢
      rw [List.getD_cons_succ]
      exact ih (by simpa using h)
    · have hb : bracketIdx x (a :: rest) = 0 := by simp [bracketIdx, ha]
      rw [hb, List.getD_cons_zero]
      exact le_of_not_lt ha

lemma forall_lt_of_bracketIdx_eq_length (x : ℚ) (l : List ℚ)
    (h : bracketIdx x l = l.length) : ∀ v ∈ l, v < x := by
  induction l with
  | nil => simp
  | cons a rest ih =>
    by_cases ha : a < x
    · have hb : bracketIdx x (a :: rest) = bracketIdx x rest + 1 := by
        simp [bracketIdx, ha]
      rw [hb, List.length_cons] at h
      intro v hv
      rcases List.mem_cons.mp hv with rfl | hv
      · exact ha
      · exact ih (by omega) v hv
    · have hb : bracketIdx x (a :: rest) = 0 := by simp [bracketIdx, ha]
      rw [hb, List.length_cons] at h
      omega

lemma getD_pred_bracketIdx_lt (x : ℚ) (l : List ℚ) (h : 0 < bracketIdx x l) :
    l.getD (bracketIdx x l - 1) 0 < x := by
  induction l with
  | nil => simp [bracketIdx] at h
  | cons a rest ih =>
    by_cases ha : a < x
    · have hb : bracketIdx x (a :: rest) = bracketIdx x rest + 1 := by
        simp [bracketIdx, ha]
      rw [hb]
      rcases Nat.eq_zero_or_pos (bracketIdx x rest) with h0 | hpos
      · simpa [h0] using ha
      · have hs : bracketIdx x rest + 1 - 1 = (bracketIdx x rest - 1) + 1 := by omega
        rw [hs, List.getD_cons_succ]
        exact ih hpos
    · have hb : bracketIdx x (a :: rest) = 0 := by simp [bracketIdx, ha]
      omega

/-- When the query lies strictly between the clamping edges, the bracket search
lands on a valid pair `(i, i+1)` with `xs[i] < x ≤ xs[i+1]`. -/
lemma bracket_facts (xs : List ℚ) (x : ℚ)
    (h1 : xs.headD 0 < x) (h2 : x < xs.getLastD 0) :
    2 ≤ xs.length ∧
    bracketIdx x (xs.drop 1) + 1 < xs.length ∧
    xs.getD (bracketIdx x (xs.drop 1)) 0 < x ∧
    x ≤ xs.getD (bracketIdx x (xs.drop 1) + 1) 0 := by
  match xs with
  | [] => simp at h1 h2; linarith
  | [a] => simp at h1 h2; linarith
  | a :: b :: t =>
    set l : List ℚ := b :: t with hl
    have hdrop : (a :: l).drop 1 = l := rfl
    rw [hdrop]
    have hirrel : ∀ d d' : ℚ, l.getLastD d = l.getLastD d' := by
      intro d d'
      rw [hl, List.getLastD_cons, List.getLastD_cons]
    have hlast : (a :: l).getLastD 0 = l.getLastD 0 := by
      rw [List.getLastD_cons]
      exact hirrel a 0
    have hlt : bracketIdx x l < l.length := by
      rcases Nat.lt_or_ge (bracketIdx x l) l.length with h | h
      · exact h
      · exfalso
        have heq : bracketIdx x l = l.length :=
          le_antisymm (bracketIdx_le_length x l) h
        have hall := forall_lt_of_bracketIdx_eq_length x l heq
        have hmem : l.getLastD b ∈ l := by
          rw [hl, List.getLastD_cons]
          exact List.getLastD_mem_cons t b
        have : l.getLastD b < x := hall _ hmem
        rw [hlast, hirrel 0 b] at h2
        linarith
    refine ⟨by simp [hl], by simpa using Nat.add_lt_add_right hlt 1, ?_, ?_⟩
    · rcases Nat.eq_zero_or_pos (bracketIdx x l) with h0 | hpos
      · rw [h0, List.getD_cons_zero]
        simpa using h1
      · have hs : bracketIdx x l = (bracketIdx x l - 1) + 1 := by omega
        rw [hs, List.getD_cons_succ]
        exact getD_pred_bracketIdx_lt x l hpos
    · rw [List.getD_cons_succ]
      exact le_getD_bracketIdx x l hlt

/-! ### Lemmas about interp1 -/

lemma headD_eq_getD (l : List ℚ) : l.headD 0 = l.getD 0 0 := by
  cases l <;> rfl

lemma headD_mem (l : List ℚ) (h : l ≠ []) : l.headD 0 ∈ l := by
  cases l with
  | nil => exact absurd rfl h
  | cons a t => simp

lemma getLastD_mem (l : List ℚ) (h : l ≠ []) : l.getLastD 0 ∈ l := by
  cases l with
  | nil => exact absurd rfl h
  | cons a t =>
    rw [List.getLastD_cons]
    exact List.getLastD_mem_cons t a

lemma getD_mem (l : List ℚ) (i : ℕ) (h : i < l.length) : l.getD i 0 ∈ l := by
  simp only [List.getD_eq_getElem?_getD, List.getElem?_eq_getElem h, Option.getD_some]
  exact List.getElem_mem h

lemma pairwise_getD_lt (xs : List ℚ) (hs : xs.Pairwise (· < ·)) {i j : ℕ}
    (hij : i < j) (hj : j < xs.length) : xs.getD i 0 < xs.getD j 0 := by
  have hi : i < xs.length := lt_trans hij hj
  simp only [List.getD_eq_getElem?_getD, List.getElem?_eq_getElem hi,
    List.getElem?_eq_getElem hj, Option.getD_some]
  exact List.pairwise_iff_getElem.mp hs i j hi hj hij

lemma pairwise_getD_le (xs : List ℚ) (hs : xs.Pairwise (· < ·)) {i j : ℕ}
    (hij : i ≤ j) (hj : j < xs.length) : xs.getD i 0 ≤ xs.getD j 0 := by
  rcases Nat.lt_or_ge i j with h | h
  · exact le_of_lt (pairwise_getD_lt xs hs h hj)
  · have : i = j := le_antisymm hij h
    rw [this]

lemma getLastD_eq_getD (l : List ℚ) (h : l ≠ []) :
    l.getLastD 0 = l.getD (l.length - 1) 0 := by
  induction l with
  | nil => exact absurd rfl h
  | cons a t ih =>
    cases t with
    | nil => rfl
    | cons b u =>
      rw [List.getLastD_cons]
      have hbu : (b :: u) ≠ [] := by simp
      have hir : (b :: u).getLastD a = (b :: u).getLastD 0 := by
        rw [List.getLastD_cons, List.getLastD_cons]
      rw [hir, ih hbu]
      have hlen : (a :: b :: u).length - 1 = ((b :: u).length - 1) + 1 := by
        simp
      rw [hlen, List.getD_cons_succ]

lemma interp1_of_le_head (xArr yArr : List ℚ) (x : ℚ) (h : x ≤ xArr.headD 0) :
    interp1 xArr yArr x = yArr.headD 0 := by
  rw [interp1, if_pos h]

lemma interp1_of_last_le (xArr yArr : List ℚ) (x : ℚ)
    (hs : xArr.Pairwise (· < ·)) (hn : 2 ≤ xArr.length)
    (h : xArr.getLastD 0 ≤ x) :
    interp1 xArr yArr x = yArr.getLastD 0 := by
  have hne : xArr ≠ [] := by
    intro he
    rw [he] at hn
    simp at hn
  have hh : xArr.headD 0 < xArr.getLastD 0 := by
    rw [headD_eq_getD, getLastD_eq_getD _ hne]
    exact pairwise_getD_lt xArr hs (by omega) (by omega)
  rw [interp1, if_neg (by linarith), if_pos h]

lemma interp1_else (xArr yArr : List ℚ) (x : ℚ)
    (h1 : ¬ x ≤ xArr.headD 0) (h2 : ¬ xArr.getLastD 0 ≤ x) :
    interp1 xArr yArr x =
      yArr.getD (bracketIdx x (xArr.drop 1)) 0
        + (x - xArr.getD (bracketIdx x (xArr.drop 1)) 0)
          / (xArr.getD (bracketIdx x (xArr.drop 1) + 1) 0
              - xArr.getD (bracketIdx x (xArr.drop 1)) 0)
          * (yArr.getD (bracketIdx x (xArr.drop 1) + 1) 0
              - yArr.getD (bracketIdx x (xArr.drop 1)) 0) := by
  rw [interp1, if_neg h1, if_neg h2]

/-- Interior case of `interp1`: for a strictly increasing table, any bracketing
pair `xs[i] < x ≤ xs[i+1]` determines the result as the linear interpolation
on that pair. -/
lemma interp1_bracket (xArr yArr : List ℚ) (x : ℚ) (i : ℕ)
    (hs : xArr.Pairwise (· < ·)) (hlen : yArr.length = xArr.length)
    (hi : i + 1 < xArr.length)
    (hlo : xArr.getD i 0 < x) (hhi : x ≤ xArr.getD (i + 1) 0) :
    interp1 xArr yArr x
      = yArr.getD i 0
        + (x - xArr.getD i 0) / (xArr.getD (i + 1) 0 - xArr.getD i 0)
          * (yArr.getD (i + 1) 0 - yArr.getD i 0) := by
  have hne : xArr ≠ [] := by
    intro he
    rw [he] at hi
    simp at hi
  have hyne : yArr ≠ [] := by
    intro he
    rw [he] at hlen
    simp at hlen
    omega
  have hhead : xArr.headD 0 < x := by
    rw [headD_eq_getD]
    rcases Nat.eq_zero_or_pos i with h0 | hp
    · rwa [h0] at hlo
    · exact lt_trans (pairwise_getD_lt xArr hs hp (by omega)) hlo
  have hstep : xArr.getD i 0 < xArr.getD (i + 1) 0 :=
    pairwise_getD_lt xArr hs (Nat.lt_succ_self i) hi
  have hden : xArr.getD (i + 1) 0 - xArr.getD i 0 ≠ 0 := by linarith
  rcases le_or_lt (xArr.getLastD 0) x with hle | hlt
  · -- the query coincides with the last sample; the clamp branch fires but the
    -- interpolation formula evaluates to the same value
    have hlast_eq : xArr.getLastD 0 = xArr.getD (xArr.length - 1) 0 :=
      getLastD_eq_getD _ hne
    have hxeq : x = xArr.getD (i + 1) 0 := by
      refine le_antisymm hhi ?_
      rw [hlast_eq] at hle
      have h2 : xArr.getD (i + 1) 0 ≤ xArr.getD (xArr.length - 1) 0 :=
        pairwise_getD_le xArr hs (by omega) (by omega)
      linarith
    have hi1 : i + 1 = xArr.length - 1 := by
      by_contra hne2
      have hlt2 : i + 1 < xArr.length - 1 := by omega
      have h3 := pairwise_getD_lt xArr hs hlt2 (by omega)
      rw [← hlast_eq] at h3
      linarith
    rw [interp1_of_last_le _ _ _ hs (by omega) hle]
    rw [getLastD_eq_getD yArr hyne, hlen, ← hi1, hxeq, div_self hden]
    ring
  · rw [interp1_else _ _ _ (not_le.mpr hhead) (not_le.mpr hlt)]
    obtain ⟨hn2, hjlt, hjlo, hjhi⟩ := bracket_facts xArr x hhead hlt
    have hij : i = bracketIdx x (xArr.drop 1) := by
      by_contra hne2
      rcases Nat.lt_or_ge i (bracketIdx x (xArr.drop 1)) with hlt2 | hge
      · have h4 : xArr.getD (i + 1) 0 ≤ xArr.getD (bracketIdx x (xArr.drop 1)) 0 :=
          pairwise_getD_le xArr hs (by omega) (by omega)
        linarith
      · have hlt3 : bracketIdx x (xArr.drop 1) < i := by omega
        have h4 : xArr.getD (bracketIdx x (xArr.drop 1) + 1) 0 ≤ xArr.getD i 0 :=
          pairwise_getD_le xArr hs (by omega) (by omega)
        linarith
    rw [← hij]

/-- For a strictly increasing table with positive values, `interp1` is
positive at every query: both clamp branches return a table value, and the
interior branch is a convex-style combination `(1-t)*y0 + t*y1` with
`0 < t ≤ 1`. -/
lemma interp1_pos (xArr yArr : List ℚ) (x : ℚ)
    (hlen : yArr.length = xArr.length)
    (hne : xArr ≠ []) (hpos : ∀ y ∈ yArr, 0 < y) :
    0 < interp1 xArr yArr x := by
  have hyne : yArr ≠ [] := by
    intro he
    rw [he] at hlen
    simp at hlen
    exact hne (List.length_eq_zero.mp hlen.symm)
  by_cases h1 : x ≤ xArr.headD 0
  · rw [interp1_of_le_head _ _ _ h1]
    exact hpos _ (headD_mem _ hyne)
  by_cases h2 : xArr.getLastD 0 ≤ x
  · rw [interp1, if_neg h1, if_pos h2]
    exact hpos _ (getLastD_mem _ hyne)
  · rw [interp1_else _ _ _ h1 h2]
    obtain ⟨hn2, hjlt, hjlo, hjhi⟩ := bracket_facts xArr x (not_le.mp h1) (not_le.mp h2)
    set j := bracketIdx x (xArr.drop 1) with hj
    have hstep : xArr.getD j 0 < xArr.getD (j + 1) 0 := lt_of_lt_of_le hjlo hjhi
    set t := (x - xArr.getD j 0) / (xArr.getD (j + 1) 0 - xArr.getD j 0) with ht
    have ht0 : 0 < t := div_pos (by linarith) (by linarith)
    have ht1 : t ≤ 1 := (div_le_one (by linarith)).mpr (by linarith)
    have hy0 : 0 < yArr.getD j 0 := hpos _ (getD_mem _ _ (by omega))
    have hy1 : 0 < yArr.getD (j + 1) 0 := hpos _ (getD_mem _ _ (by omega))
    nlinarith [mul_nonneg (sub_nonneg.mpr ht1) hy0.le, mul_pos ht0 hy1]

/-! ### Facts about the concrete CIE tables -/

lemma WL_pairwise : WL.Pairwise (· < ·) := by
  rw [WL]
  refine List.Pairwise.map _ ?_ (List.pairwise_lt_range 31)
  intro a b hab
  have : (a : ℚ) < (b : ℚ) := by exact_mod_cast hab
  linarith

lemma WL_length : WL.length = 31 := by
  rw [WL]
  simp

lemma WL_ne_nil : WL ≠ [] := by
  intro h
  have := WL_length
  rw [h] at this
  simp at this

lemma CMF_X_length : CMF_X.length = WL.length := by rw [WL_length]; rfl

lemma CMF_Y_length : CMF_Y.length = WL.length := by rw [WL_length]; rfl

lemma CMF_Z_length : CMF_Z.length = WL.length := by rw [WL_length]; rfl

lemma D65_length : D65.length = WL.length := by rw [WL_length]; rfl

lemma CMF_X_pos : ∀ y ∈ CMF_X, 0 < y := by
  intro y hy
  fin_cases hy <;> norm_num

lemma CMF_Y_pos : ∀ y ∈ CMF_Y, 0 < y := by
  intro y hy
  fin_cases hy <;> norm_num

lemma CMF_Z_pos : ∀ y ∈ CMF_Z, 0 < y := by
  intro y hy
  fin_cases hy <;> norm_num

lemma D65_pos : ∀ y ∈ D65, 0 < y := by
  intro y hy
  fin_cases hy <;> norm_num

lemma D65_lookup_pos (nm : ℚ) : 0 < interp1 WL D65 nm :=
  interp1_pos WL D65 nm D65_length WL_ne_nil D65_pos

lemma xbar_lookup_pos (nm : ℚ) : 0 < interp1 WL CMF_X nm :=
  interp1_pos WL CMF_X nm CMF_X_length WL_ne_nil CMF_X_pos

lemma ybar_lookup_pos (nm : ℚ) : 0 < interp1 WL CMF_Y nm :=
  interp1_pos WL CMF_Y nm CMF_Y_length WL_ne_nil CMF_Y_pos

lemma zbar_lookup_pos (nm : ℚ) : 0 < interp1 WL CMF_Z nm :=
  interp1_pos WL CMF_Z nm CMF_Z_length WL_ne_nil CMF_Z_pos

/-! ### Lemmas about the sample grid -/

lemma sampleList_mem_bounds (lo hi : ℚ) :
    ∀ nm ∈ sampleList lo hi, lo ≤ nm ∧ nm ≤ hi := by
  intro nm hnm
  rw [sampleList] at hnm
  split at hnm
  · rename_i hle
    obtain ⟨i, hik, rfl⟩ := List.mem_map.mp hnm
    rw [List.mem_range] at hik
    have hF : (0 : ℤ) ≤ ⌊((hi - lo) / 5 : ℚ)⌋ := by
      rw [Int.le_floor]
      push_cast
      linarith
    have hiK : (i : ℚ) ≤ ((⌊((hi - lo) / 5 : ℚ)⌋ : ℤ) : ℚ) := by
      have h1 : i ≤ ⌊((hi - lo) / 5 : ℚ)⌋.toNat := by omega
      have h2 : (⌊((hi - lo) / 5 : ℚ)⌋.toNat : ℤ) = ⌊((hi - lo) / 5 : ℚ)⌋ :=
        Int.toNat_of_nonneg hF
      rw [← h2]
      exact_mod_cast h1
    have hfle : ((⌊((hi - lo) / 5 : ℚ)⌋ : ℤ) : ℚ) ≤ (hi - lo) / 5 := Int.floor_le _
    have hi0 : (0 : ℚ) ≤ (i : ℚ) := Nat.cast_nonneg i
    constructor
    · linarith
    · linarith
  · simp at hnm

lemma sampleList_ne_nil (lo hi : ℚ) (h : lo ≤ hi) : sampleList lo hi ≠ [] := by
  rw [sampleList, if_pos h]
  simp only [ne_eq, List.map_eq_nil_iff, List.range_eq_nil]
  omega

lemma sampleList_mem_iff (lo hi nm : ℚ) :
    nm ∈ sampleList lo hi ↔ ∃ k : ℕ, nm = lo + 5 * (k : ℚ) ∧ nm ≤ hi := by
  constructor
  · intro h
    have hb := sampleList_mem_bounds lo hi nm h
    rw [sampleList] at h
    split at h
    · obtain ⟨i, hik, hmm⟩ := List.mem_map.mp h
      exact ⟨i, hmm.symm, hb.2⟩
    · simp at h
  · rintro ⟨k, rfl, hk⟩
    have hk0 : (0 : ℚ) ≤ (k : ℚ) := Nat.cast_nonneg k
    have hle : lo ≤ hi := by linarith
    rw [sampleList, if_pos hle]
    refine List.mem_map.mpr ⟨k, ?_, rfl⟩
    rw [List.mem_range]
    have h1 : (k : ℚ) ≤ (hi - lo) / 5 := by linarith
    have h2 : (k : ℤ) ≤ ⌊((hi - lo) / 5 : ℚ)⌋ := Int.le_floor.mpr (by exact_mod_cast h1)
    omega

/-- Every term `illuminant * ybar` of the normalization sum is positive. -/
lemma illumY_sum_pos (K : Type) [LinearOrderedField K] (lo hi : ℚ) (h : lo ≤ hi) :
    0 < ((sampleList lo hi).map (fun nm =>
      ((interp1 WL D65 nm : ℚ) : K) * ((interp1 WL CMF_Y nm : ℚ) : K))).sum := by
  apply List.sum_pos
  · intro t ht
    obtain ⟨nm, _, rfl⟩ := List.mem_map.mp ht
    have h1 : (0 : K) < ((interp1 WL D65 nm : ℚ) : K) := by
      exact_mod_cast D65_lookup_pos nm
    have h2 : (0 : K) < ((interp1 WL CMF_Y nm : ℚ) : K) := by
      exact_mod_cast ybar_lookup_pos nm
    exact mul_pos h1 h2
  · simp only [ne_eq, List.map_eq_nil_iff]
    exact sampleList_ne_nil lo hi h

/-! ### Claim theorems about the integrator -/

/-- Claim C2: for every range and transmittance function, `integrateXYZ`
computes exactly the spec's fixed-step Riemann sum: it samples
`rangeMin, rangeMin + 5, ...` up to `rangeMax`, accumulates
`illuminant * T(nm) * cmf` into X, Y, Z and `illuminant * ybar` into `Yw`,
scales by `1 / Yw` when `Yw > 0`, and returns `X = Y = Z = 0` when `Yw = 0`
(for example an empty range with `rangeMax < rangeMin`). -/
theorem integrateXYZ_matches_spec_sum (K : Type) [LinearOrderedField K]
    [DecidableRel ((· < ·) : K → K → Prop)] (rangeMin rangeMax : ℚ) (T : ℚ → K) :
    integrateXYZ K rangeMin rangeMax T = integrateXYZClaim K rangeMin rangeMax T ∧
    (∀ nm : ℚ, nm ∈ sampleList rangeMin rangeMax ↔
      ∃ k : ℕ, nm = rangeMin + 5 * (k : ℚ) ∧ nm ≤ rangeMax) := by
  constructor
  · simp only [integrateXYZ, integrateXYZClaim]
    split_ifs with h
    · rfl
    · by_cases hpts : sampleList rangeMin rangeMax = []
      · rw [hpts]
        simp
      · exfalso
        apply h
        apply List.sum_pos
        · intro t ht
          obtain ⟨nm, _, rfl⟩ := List.mem_map.mp ht
          have h1 : (0 : K) < ((interp1 WL D65 nm : ℚ) : K) := by
            exact_mod_cast D65_lookup_pos nm
          have h2 : (0 : K) < ((interp1 WL CMF_Y nm : ℚ) : K) := by
            exact_mod_cast ybar_lookup_pos nm
          exact mul_pos h1 h2
        · simpa only [ne_eq, List.map_eq_nil_iff] using hpts
  · intro nm
    exact sampleList_mem_iff rangeMin rangeMax nm

/-- Claim C3: the perceived-color pipeline always integrates over the
caller-requested range clamped to the observer-table domain 400-700 nm:
the result equals the integral over the intersection of
`[rangeMin, rangeMax]` with `[400, 700]`, clamping is idempotent, and no
sampled wavelength lies outside 400-700 nm. -/
theorem perceived_range_clamped (K : Type) [LinearOrderedField K]
    [DecidableRel ((· < ·) : K → K → Prop)] (rangeMin rangeMax : ℚ) (T : ℚ → K) :
    perceivedRangeXYZ K rangeMin rangeMax T
        = integrateXYZ K (max rangeMin 400) (min rangeMax 700) T ∧
    perceivedRangeXYZ K rangeMin rangeMax T
        = perceivedRangeXYZ K (max rangeMin 400) (min rangeMax 700) T ∧
    ∀ nm ∈ sampleList (max rangeMin 400) (min rangeMax 700),
      400 ≤ nm ∧ nm ≤ 700 := by
  refine ⟨rfl, ?_, ?_⟩
  · rw [perceivedRangeXYZ, perceivedRangeXYZ, max_assoc, max_self, min_assoc, min_self]
  · intro nm hnm
    have hb := sampleList_mem_bounds _ _ nm hnm
    exact ⟨le_trans (le_max_right _ _) hb.1, le_trans hb.2 (min_le_right _ _)⟩

/-! ### The spectrum model (Gaussian bands, Beer-Lambert transmittance) -/

/-- One Gaussian absorption band: center, full width at half maximum, and peak
absorbance, as supplied by the UI to `AbsorptionSpectrum`/`AbsorptionMini`. -/
structure AbsorptionBand where
  centerNM : ℝ
  fwhmNM : ℝ
  peakAbsorbance : ℝ

/-- FWHM-to-sigma conversion with the degenerate-input guard of the source:
`fwhm > 0 ? fwhm / (2 * Math.sqrt(2 * Math.log(2))) : 1`. -/
noncomputable def sigmaOf (fwhm : ℝ) : ℝ :=
  if 0 < fwhm then fwhm / (2 * Real.sqrt (2 * Real.log 2)) else 1

/-- Gaussian lobe `Math.exp(-0.5 * Math.pow((nm - center) / sigma, 2))`. -/
noncomputable def gaussianBand (center sigma nm : ℝ) : ℝ :=
  Real.exp (-0.5 * ((nm - center) / sigma) ^ 2)

/-- Total decadic absorbance of a spectrum: the sum over its bands of
`peakAbsorbance * gaussian(nm, center, sigma)`. -/
noncomputable def absorbance (bands : List AbsorptionBand) (nm : ℝ) : ℝ :=
  (bands.map (fun b =>
    b.peakAbsorbance * gaussianBand b.centerNM (sigmaOf b.fwhmNM) nm)).sum

/-- Beer-Lambert transmittance `Math.pow(10, -A)` (decadic). -/
noncomputable def transmittance (bands : List AbsorptionBand) (nm : ℝ) : ℝ :=
  (10 : ℝ) ^ (-(absorbance bands nm))

/-- Claim C1: for a spectrum whose bands all have `peakAbsorbance = 0`, the
transmittance is identically 1 and integrating 400-700 nm at the 5 nm step
yields a tristimulus value with `Y = 1` exactly (the exact-arithmetic form of
"Y is 1 up to numerical tolerance"). -/
theorem nonabsorbing_spectrum_has_unit_Y (bands : List AbsorptionBand)
    (h : ∀ b ∈ bands, b.peakAbsorbance = 0) :
    (integrateXYZ ℝ 400 700 (fun nm => transmittance bands nm)).Y = 1 := by
  have hT : ∀ nm : ℚ, transmittance bands (nm : ℝ) = 1 := by
    intro nm
    rw [transmittance]
    have hA : absorbance bands (nm : ℝ) = 0 := by
      rw [absorbance]
      apply List.sum_eq_zero
      intro t ht
      obtain ⟨b, hb, rfl⟩ := List.mem_map.mp ht
      rw [h b hb, zero_mul]
    rw [hA, neg_zero, Real.rpow_zero]
  have hmap : (sampleList 400 700).map (fun nm =>
        ((interp1 WL D65 nm : ℚ) : ℝ) * transmittance bands (nm : ℝ)
          * ((interp1 WL CMF_Y nm : ℚ) : ℝ))
      = (sampleList 400 700).map (fun nm =>
        ((interp1 WL D65 nm : ℚ) : ℝ) * ((interp1 WL CMF_Y nm : ℚ) : ℝ)) := by
    apply List.map_congr_left
    intro nm _
    rw [hT nm, mul_one]
  have hYw : 0 < ((sampleList 400 700).map (fun nm =>
      ((interp1 WL D65 nm : ℚ) : ℝ) * ((interp1 WL CMF_Y nm : ℚ) : ℝ))).sum :=
    illumY_sum_pos ℝ 400 700 (by norm_num)
  simp only [integrateXYZ]
  rw [hmap, if_pos hYw]
  exact mul_one_div_cancel (ne_of_gt hYw)

/-- Witness for C1: the concrete one-band spectrum with center 550 nm,
FWHM 30 nm and zero peak absorbance integrates to Y = 1. -/
theorem nonabsorbing_unit_Y_witness :
    (integrateXYZ ℝ 400 700
      (fun nm => transmittance [AbsorptionBand.mk 550 30 0] nm)).Y = 1 := by
  apply nonabsorbing_spectrum_has_unit_Y
  intro b hb
  rcases List.mem_singleton.mp hb with rfl
  rfl

/-- Claim C4: the interpolator clamps at both table edges, interpolates
linearly on the bracketing pair in the interior, and returns the exact table
value on a sample hit. -/
theorem interp1_lookup_contract (xArr yArr : List ℚ) (x : ℚ)
    (hs : xArr.Pairwise (· < ·)) (hn : 2 ≤ xArr.length)
    (hlen : yArr.length = xArr.length) :
    (x ≤ xArr.headD 0 → interp1 xArr yArr x = yArr.headD 0) ∧
    (xArr.getLastD 0 ≤ x → interp1 xArr yArr x = yArr.getLastD 0) ∧
    (∀ i : ℕ, i + 1 < xArr.length →
      xArr.getD i 0 < x → x ≤ xArr.getD (i + 1) 0 →
      interp1 xArr yArr x
        = yArr.getD i 0
          + (yArr.getD (i + 1) 0 - yArr.getD i 0) * (x - xArr.getD i 0)
            / (xArr.getD (i + 1) 0 - xArr.getD i 0)) ∧
    (∀ j : ℕ, j < xArr.length → x = xArr.getD j 0 →
      interp1 xArr yArr x = yArr.getD j 0) := by
  refine ⟨fun h => interp1_of_le_head _ _ _ h,
    fun h => interp1_of_last_le _ _ _ hs hn h, ?_, ?_⟩
  · intro i hi hlo hhi
    rw [interp1_bracket xArr yArr x i hs hlen hi hlo hhi]
    ring
  · intro j hj hx
    rcases Nat.eq_zero_or_pos j with rfl | hjpos
    · have hx' : x = xArr.headD 0 := by rw [headD_eq_getD]; exact hx
      rw [interp1_of_le_head _ _ _ (le_of_eq hx'), headD_eq_getD]
    · have hj1 : (j - 1) + 1 = j := by omega
      have hlo : xArr.getD (j - 1) 0 < x := by
        rw [hx]
        exact pairwise_getD_lt xArr hs (by omega) hj
      have hhi : x ≤ xArr.getD ((j - 1) + 1) 0 := by rw [hj1, ← hx]
      have hbr := interp1_bracket xArr yArr x (j - 1) hs hlen (by omega) hlo hhi
      rw [hj1] at hbr
      have hne : xArr.getD j 0 - xArr.getD (j - 1) 0 ≠ 0 := by
        have := pairwise_getD_lt xArr hs (show j - 1 < j by omega) hj
        linarith
      rw [hbr, hx, div_self hne, one_mul]
      ring

/-- Witness for C4 on the concrete table x = [0, 10, 20], y = [1, 2, 4]:
interior query 15 interpolates to 3, query -5 clamps to the first value,
and the exact sample hit 10 returns the sample value 2. -/
theorem interp1_contract_witness :
    interp1 [0, 10, 20] [1, 2, 4] 15 = 3
      ∧ interp1 [0, 10, 20] [1, 2, 4] (-5) = 1
      ∧ interp1 [0, 10, 20] [1, 2, 4] 10 = 2 := by
  have h := interp1_lookup_contract [0, 10, 20] [1, 2, 4] 15
    (by decide) (by decide) (by decide)
  have h2 := interp1_lookup_contract [0, 10, 20] [1, 2, 4] (-5)
    (by decide) (by decide) (by decide)
  have h3 := interp1_lookup_contract [0, 10, 20] [1, 2, 4] 10
    (by decide) (by decide) (by decide)
  refine ⟨?_, ?_, ?_⟩
  · rw [h.2.2.1 1 (by decide) (by decide) (by decide)]
    norm_num
  · rw [h2.1 (by decide)]
    rfl
  · rw [h3.2.2.2 1 (by decide) (by decide)]
    rfl

/-- Each weighted channel sum is nonnegative when the transmittance is
nonnegative at every sampled wavelength. -/
lemma weighted_sum_nonneg (K : Type) [LinearOrderedField K] (lo hi : ℚ)
    (T : ℚ → K) (tbl : List ℚ)
    (htbl : ∀ nm : ℚ, 0 < interp1 WL tbl nm)
    (hT : ∀ nm ∈ sampleList lo hi, 0 ≤ T nm) :
    0 ≤ ((sampleList lo hi).map (fun nm =>
      ((interp1 WL D65 nm : ℚ) : K) * T nm * ((interp1 WL tbl nm : ℚ) : K))).sum := by
  apply List.sum_nonneg
  intro t ht
  obtain ⟨nm, hnm, rfl⟩ := List.mem_map.mp ht
  have h1 : (0 : K) ≤ ((interp1 WL D65 nm : ℚ) : K) :=
    le_of_lt (by exact_mod_cast D65_lookup_pos nm)
  have h3 : (0 : K) ≤ ((interp1 WL tbl nm : ℚ) : K) :=
    le_of_lt (by exact_mod_cast htbl nm)
  exact mul_nonneg (mul_nonneg h1 (hT nm hnm)) h3

/-- Claim C10: for a transmittance bounded in [0, 1] at every sampled
wavelength and a nonempty range, the integrator returns nonnegative X, Y, Z
with normalized luminance Y at most 1. -/
theorem integrateXYZ_component_bounds (K : Type) [LinearOrderedField K]
    [DecidableRel ((· < ·) : K → K → Prop)] (rangeMin rangeMax : ℚ) (T : ℚ → K)
    (hrange : rangeMin ≤ rangeMax)
    (hT : ∀ nm ∈ sampleList rangeMin rangeMax, 0 ≤ T nm ∧ T nm ≤ 1) :
    0 ≤ (integrateXYZ K rangeMin rangeMax T).X ∧
    0 ≤ (integrateXYZ K rangeMin rangeMax T).Y ∧
    0 ≤ (integrateXYZ K rangeMin rangeMax T).Z ∧
    (integrateXYZ K rangeMin rangeMax T).Y ≤ 1 := by
  have hYw := illumY_sum_pos K rangeMin rangeMax hrange
  have hT0 : ∀ nm ∈ sampleList rangeMin rangeMax, 0 ≤ T nm :=
    fun nm hnm => (hT nm hnm).1
  have hX := weighted_sum_nonneg K rangeMin rangeMax T CMF_X xbar_lookup_pos hT0
  have hY := weighted_sum_nonneg K rangeMin rangeMax T CMF_Y ybar_lookup_pos hT0
  have hZ := weighted_sum_nonneg K rangeMin rangeMax T CMF_Z zbar_lookup_pos hT0
  have hYle : ((sampleList rangeMin rangeMax).map (fun nm =>
        ((interp1 WL D65 nm : ℚ) : K) * T nm * ((interp1 WL CMF_Y nm : ℚ) : K))).sum
      ≤ ((sampleList rangeMin rangeMax).map (fun nm =>
        ((interp1 WL D65 nm : ℚ) : K) * ((interp1 WL CMF_Y nm : ℚ) : K))).sum := by
    apply List.sum_le_sum
    intro nm hnm
    have h1 : (0 : K) < ((interp1 WL D65 nm : ℚ) : K) := by
      exact_mod_cast D65_lookup_pos nm
    have h2 : (0 : K) < ((interp1 WL CMF_Y nm : ℚ) : K) := by
      exact_mod_cast ybar_lookup_pos nm
    nlinarith [mul_nonneg (mul_pos h1 h2).le (sub_nonneg.mpr (hT nm hnm).2),
      (hT nm hnm).1]
  have hinv : (0 : K) < 1 / ((sampleList rangeMin rangeMax).map (fun nm =>
      ((interp1 WL D65 nm : ℚ) : K) * ((interp1 WL CMF_Y nm : ℚ) : K))).sum :=
    one_div_pos.mpr hYw
  simp only [integrateXYZ]
  rw [if_pos hYw]
  refine ⟨mul_nonneg hX hinv.le, mul_nonneg hY hinv.le, mul_nonneg hZ hinv.le, ?_⟩
  show ((sampleList rangeMin rangeMax).map (fun nm =>
      ((interp1 WL D65 nm : ℚ) : K) * T nm * ((interp1 WL CMF_Y nm : ℚ) : K))).sum
      * (1 / ((sampleList rangeMin rangeMax).map (fun nm =>
      ((interp1 WL D65 nm : ℚ) : K) * ((interp1 WL CMF_Y nm : ℚ) : K))).sum) ≤ 1
  rw [mul_one_div]
  exact (div_le_one hYw).mpr hYle

/-- Witness for C10 with the constant transmittance 1/2 over 400-700 nm. -/
theorem integrateXYZ_bounds_witness :
    (400 : ℚ) ≤ 700 ∧
    0 ≤ (integrateXYZ ℚ 400 700 (fun _ => 1 / 2)).Y ∧
    (integrateXYZ ℚ 400 700 (fun _ => 1 / 2)).Y ≤ 1 := by
  have h := integrateXYZ_component_bounds ℚ 400 700 (fun _ => 1 / 2)
    (by norm_num) (fun nm _ => by norm_num)
  exact ⟨by norm_num, h.2.1, h.2.2.2⟩

/-- Claim C8: for positive FWHM the width is the standard conversion
`fwhm / (2 sqrt(2 ln 2))`; for zero or negative FWHM it falls back to the
fixed value 1; the width is positive for every real FWHM, so the Gaussian
band evaluation is total with values in (0, 1]. -/
theorem sigma_guard_total (fwhm : ℝ) :
    (0 < fwhm → sigmaOf fwhm = fwhm / (2 * Real.sqrt (2 * Real.log 2))) ∧
    (fwhm ≤ 0 → sigmaOf fwhm = 1) ∧
    0 < sigmaOf fwhm ∧
    (∀ center nm : ℝ, 0 < gaussianBand center (sigmaOf fwhm) nm ∧
      gaussianBand center (sigmaOf fwhm) nm ≤ 1) := by
  have hlog : 0 < Real.log 2 := Real.log_pos (by norm_num)
  have hsqrt : 0 < Real.sqrt (2 * Real.log 2) := Real.sqrt_pos.mpr (by linarith)
  have hpos : 0 < sigmaOf fwhm := by
    rw [sigmaOf]
    split_ifs with h
    · positivity
    · norm_num
  refine ⟨fun h => by rw [sigmaOf, if_pos h],
    fun h => by rw [sigmaOf, if_neg (not_lt.mpr h)], hpos, ?_⟩
  intro center nm
  refine ⟨Real.exp_pos _, ?_⟩
  rw [gaussianBand]
  rw [Real.exp_le_one_iff]
  nlinarith [sq_nonneg ((nm - center) / sigmaOf fwhm)]

/-- Witness for C8 at FWHM 40 (regular case) and FWHM -3 (fallback case). -/
theorem sigma_guard_witness :
    sigmaOf 40 = 40 / (2 * Real.sqrt (2 * Real.log 2)) ∧ sigmaOf (-3) = 1 :=
  ⟨(sigma_guard_total 40).1 (by norm_num), (sigma_guard_total (-3)).2.1 (by norm_num)⟩

/-! ### Color space converter (XYZ -> linear sRGB -> companded bytes) -/

/-- XYZ to linear sRGB matrix transform of the source (`xyzToLinearSRGB`). -/
noncomputable def xyzToLinearSRGB (X Y Z : ℝ) : ℝ × ℝ × ℝ :=
  (3.2406 * X + -1.5372 * Y + -0.4986 * Z,
   -0.9689 * X + 1.8758 * Y + 0.0415 * Z,
   0.0557 * X + -0.2040 * Y + 1.0570 * Z)

/-- sRGB gamma companding of the source (`compand`). -/
noncomputable def compand (v : ℝ) : ℝ :=
  if v ≤ 0.0031308 then 12.92 * v else 1.055 * v ^ ((1 : ℝ) / 2.4) - 0.055

/-- Byte quantization of the source hex encoder (`toHex`):
`Math.round(Math.min(255, Math.max(0, v * 255)))`. -/
noncomputable def toHexByte (v : ℝ) : ℤ :=
  round (min 255 (max 0 (v * 255)))

/-- The converter pipeline of `perceivedHex` without the optional HSL
saturation lift (spec 4.5 keeps that touch-up separable): matrix transform,
clamping of negative channels, gamma companding, byte quantization. -/
noncomputable def converterBytes (X Y Z : ℝ) : ℤ × ℤ × ℤ :=
  (toHexByte (compand (max 0 (xyzToLinearSRGB X Y Z).1)),
   toHexByte (compand (max 0 (xyzToLinearSRGB X Y Z).2.1)),
   toHexByte (compand (max 0 (xyzToLinearSRGB X Y Z).2.2)))

/-- The converter as worded by claim C5: subtraction-form matrix rows, clamp
of negative components, the sRGB transfer function, and final integer channel
`round(clamp(encoded, 0, 1) * 255)`. -/
noncomputable def converterBytesClaim (X Y Z : ℝ) : ℤ × ℤ × ℤ :=
  let r := 3.2406 * X - 1.5372 * Y - 0.4986 * Z
  let g := -0.9689 * X + 1.8758 * Y + 0.0415 * Z
  let b := 0.0557 * X - 0.2040 * Y + 1.0570 * Z
  let enc := fun v : ℝ =>
    if v ≤ 0.0031308 then 12.92 * v else 1.055 * v ^ ((1 : ℝ) / 2.4) - 0.055
  (round (min 1 (max 0 (enc (max 0 r))) * 255),
   round (min 1 (max 0 (enc (max 0 g))) * 255),
   round (min 1 (max 0 (enc (max 0 b))) * 255))

/-- The source byte quantization equals the spec's
`round(clamp(v, 0, 1) * 255)`. -/
lemma byte_quant_eq (v : ℝ) : toHexByte v = round (min 1 (max 0 v) * 255) := by
  rw [toHexByte]
  congr 1
  rcases le_total v 0 with h | h
  · rw [max_eq_left (by linarith : v * 255 ≤ 0), max_eq_left h]
    norm_num
  · rw [max_eq_right (by positivity : (0 : ℝ) ≤ v * 255), max_eq_right h]
    rcases le_total v 1 with h1 | h1
    · rw [min_eq_right (by linarith : v * 255 ≤ 255), min_eq_right h1]
    · rw [min_eq_left (by linarith : (255 : ℝ) ≤ v * 255), min_eq_left h1]
      norm_num

/-- Claim C5: the color space converter realizes exactly the matrix rows,
negative-clamp-then-compand order, transfer function and byte rounding stated
by the spec. -/
theorem converter_matches_spec (X Y Z : ℝ) :
    (xyzToLinearSRGB X Y Z).1 = 3.2406 * X - 1.5372 * Y - 0.4986 * Z ∧
    (xyzToLinearSRGB X Y Z).2.1 = -0.9689 * X + 1.8758 * Y + 0.0415 * Z ∧
    (xyzToLinearSRGB X Y Z).2.2 = 0.0557 * X - 0.2040 * Y + 1.0570 * Z ∧
    converterBytes X Y Z = converterBytesClaim X Y Z := by
  have e1 : (3.2406 * X + -1.5372 * Y + -0.4986 * Z : ℝ)
      = 3.2406 * X - 1.5372 * Y - 0.4986 * Z := by ring
  have e3 : (0.0557 * X + -0.2040 * Y + 1.0570 * Z : ℝ)
      = 0.0557 * X - 0.2040 * Y + 1.0570 * Z := by ring
  refine ⟨by rw [xyzToLinearSRGB]; exact e1, by rw [xyzToLinearSRGB],
    by rw [xyzToLinearSRGB]; exact e3, ?_⟩
  simp only [converterBytes, converterBytesClaim, xyzToLinearSRGB, compand,
    Prod.mk.injEq]
  rw [e1, e3]
  exact ⟨byte_quant_eq _, byte_quant_eq _, byte_quant_eq _⟩

/-! ### Heuristic wavelength colorizers -/

/-- Base channel triple of the gradient colorizer `wavelengthToSRGB`
(six visible bands with upper domain 780 nm). -/
noncomputable def srgbBase (nm : ℝ) : ℝ × ℝ × ℝ :=
  if 380 ≤ nm ∧ nm < 440 then (-(nm - 440) / 60, 0, 1)
  else if 440 ≤ nm ∧ nm < 490 then (0, (nm - 440) / 50, 1)
  else if 490 ≤ nm ∧ nm < 510 then (0, 1, -(nm - 510) / 20)
  else if 510 ≤ nm ∧ nm < 580 then ((nm - 510) / 70, 1, 0)
  else if 580 ≤ nm ∧ nm < 645 then (1, -(nm - 645) / 65, 0)
  else if 645 ≤ nm ∧ nm ≤ 780 then (1, 0, 0)
  else (0, 0, 0)

/-- Intensity factor of `wavelengthToSRGB` exactly as in the source: ramp on
[380, 420), plateau while `nm < 701`, ramp on [701, 780], otherwise 0. -/
noncomputable def srgbFactor (nm : ℝ) : ℝ :=
  if 380 ≤ nm ∧ nm < 420 then 0.3 + 0.7 * (nm - 380) / 40
  else if 420 ≤ nm ∧ nm < 701 then 1
  else if 701 ≤ nm ∧ nm ≤ 780 then 0.3 + 0.7 * (780 - nm) / 80
  else 0

/-- Gamma-0.8 byte encoding of `wavelengthToSRGB`:
`Math.round(255 * Math.pow(Math.max(0, c) * Math.max(0, factor), 0.8))`. -/
noncomputable def srgbTo255 (factor c : ℝ) : ℤ :=
  round (255 * (max 0 c * max 0 factor) ^ ((0.8 : ℝ)))

/-- The gradient colorizer `wavelengthToSRGB` of the source. -/
noncomputable def wavelengthToSRGB (nm : ℝ) : ℤ × ℤ × ℤ :=
  (srgbTo255 (srgbFactor nm) (srgbBase nm).1,
   srgbTo255 (srgbFactor nm) (srgbBase nm).2.1,
   srgbTo255 (srgbFactor nm) (srgbBase nm).2.2)

/-- The intensity factor as worded by claim C6: ramp 0.3 to 1.0 over
[380, 420), 1.0 in between, ramp 1.0 to 0.3 over 700-780. -/
noncomputable def claimFactor (nm : ℝ) : ℝ :=
  if 380 ≤ nm ∧ nm < 420 then 0.3 + 0.7 * (nm - 380) / 40
  else if 420 ≤ nm ∧ nm ≤ 700 then 1
  else if 700 < nm ∧ nm ≤ 780 then 0.3 + 0.7 * (780 - nm) / 80
  else 0

/-- The six-band base mapping as worded by claim C6 (ramps written in
increasing-direction form). -/
noncomputable def claimBase (nm : ℝ) : ℝ × ℝ × ℝ :=
  if 380 ≤ nm ∧ nm < 440 then ((440 - nm) / 60, 0, 1)
  else if 440 ≤ nm ∧ nm < 490 then (0, (nm - 440) / 50, 1)
  else if 490 ≤ nm ∧ nm < 510 then (0, 1, (510 - nm) / 20)
  else if 510 ≤ nm ∧ nm < 580 then ((nm - 510) / 70, 1, 0)
  else if 580 ≤ nm ∧ nm < 645 then (1, (645 - nm) / 65, 0)
  else if 645 ≤ nm ∧ nm ≤ 780 then (1, 0, 0)
  else (0, 0, 0)

/-- Counterexample to claim C6 as stated: at the non-integer wavelength
700.5 nm the source factor is 1 (the plateau condition is `nm < 701`),
while the claimed 700-780 nm ramp value is 0.995625. -/
theorem factor_ramp_boundary_mismatch :
    srgbFactor (1401 / 2) ≠ claimFactor (1401 / 2) := by
  have h1 : srgbFactor (1401 / 2) = 1 := by
    rw [srgbFactor, if_neg (by norm_num), if_pos (by norm_num)]
  have h2 : claimFactor (1401 / 2) = 0.3 + 0.7 * (780 - 1401 / 2) / 80 := by
    rw [claimFactor, if_neg (by norm_num), if_neg (by norm_num),
      if_pos (by norm_num)]
  rw [h1, h2]
  norm_num

/-- Away from the gap (700, 701) the source factor matches the claimed one. -/
lemma srgbFactor_eq_claim_off_gap (nm : ℝ) (h : nm ≤ 700 ∨ 701 ≤ nm) :
    srgbFactor nm = claimFactor nm := by
  rw [srgbFactor, claimFactor]
  rcases h with h | h
  · split_ifs <;> first | rfl | (exfalso; simp_all; try linarith)
  · split_ifs <;> first | rfl | (exfalso; simp_all; try linarith)

/-- Claim C6 (amended): `wavelengthToSRGB` computes the claimed six-band base
mapping and gamma-0.8 encoding; its intensity factor matches the claimed
shape except that the plateau extends to `nm < 701`, with the 700-780 ramp
applying on [701, 780] — in particular the two factors agree at every integer
wavelength. -/
theorem heuristic_colorizer_amended (nm : ℝ) :
    srgbBase nm = claimBase nm ∧
    wavelengthToSRGB nm
      = (round (255 * (max 0 (claimBase nm).1 * max 0 (srgbFactor nm)) ^ ((0.8 : ℝ))),
         round (255 * (max 0 (claimBase nm).2.1 * max 0 (srgbFactor nm)) ^ ((0.8 : ℝ))),
         round (255 * (max 0 (claimBase nm).2.2 * max 0 (srgbFactor nm)) ^ ((0.8 : ℝ)))) ∧
    (nm ≤ 700 ∨ 701 ≤ nm → srgbFactor nm = claimFactor nm) ∧
    (∀ k : ℤ, srgbFactor (k : ℝ) = claimFactor (k : ℝ)) := by
  have hbase : srgbBase nm = claimBase nm := by
    rw [srgbBase, claimBase]
    split_ifs <;> refine Prod.ext ?_ (Prod.ext ?_ ?_) <;> simp
  refine ⟨hbase, ?_, srgbFactor_eq_claim_off_gap nm, ?_⟩
  · rw [wavelengthToSRGB, srgbTo255, srgbTo255, srgbTo255, hbase]
  · intro k
    rcases le_or_lt k 700 with hk | hk
    · exact srgbFactor_eq_claim_off_gap _ (Or.inl (by exact_mod_cast hk))
    · have h701 : (701 : ℤ) ≤ k := by omega
      exact srgbFactor_eq_claim_off_gap _ (Or.inr (by exact_mod_cast h701))

/-- Witness for the amended C6 at the concrete wavelength 500 nm. -/
theorem heuristic_colorizer_witness :
    srgbBase 500 = claimBase 500 ∧ srgbFactor 500 = claimFactor 500 :=
  ⟨(heuristic_colorizer_amended 500).1,
    (heuristic_colorizer_amended 500).2.2.1 (Or.inl (by norm_num))⟩

/-- Base channel triple of the spectrometer-app colorizer `wavelengthToRGB`
(six visible bands with upper domain 740 nm). -/
noncomputable def rgbBase740 (w : ℝ) : ℝ × ℝ × ℝ :=
  if 380 ≤ w ∧ w < 440 then (-(w - 440) / (440 - 380), 0, 1)
  else if 440 ≤ w ∧ w < 490 then (0, (w - 440) / (490 - 440), 1)
  else if 490 ≤ w ∧ w < 510 then (0, 1, -(w - 510) / (510 - 490))
  else if 510 ≤ w ∧ w < 580 then ((w - 510) / (580 - 510), 1, 0)
  else if 580 ≤ w ∧ w < 645 then (1, -(w - 645) / (645 - 580), 0)
  else if 645 ≤ w ∧ w ≤ 740 then (1, 0, 0)
  else (0, 0, 0)

/-- Intensity factor of `wavelengthToRGB`. -/
noncomputable def factor740 (w : ℝ) : ℝ :=
  if w < 420 then 0.3 + 0.7 * (w - 380) / (420 - 380)
  else if w > 700 then 0.3 + 0.7 * (740 - w) / (740 - 700)
  else 1.0

/-- Byte encoding of `wavelengthToRGB`:
`Math.round(255 * Math.pow(Math.max(0, Math.min(1, v * factor)), 0.8))`. -/
noncomputable def to255clamped (factor v : ℝ) : ℤ :=
  round (255 * (max 0 (min 1 (v * factor))) ^ ((0.8 : ℝ)))

/-- `wavelengthToRGB` of the spectrometer app: gray fallback outside
380-740 nm, otherwise an `rgb(r, g, b)` string from the band mapping. -/
noncomputable def wavelengthToRGB (w : ℝ) : String :=
  if w < 380 ∨ w > 740 then "#888888"
  else
    "rgb(" ++ toString (to255clamped (factor740 w) (rgbBase740 w).1) ++ ", "
      ++ toString (to255clamped (factor740 w) (rgbBase740 w).2.1) ++ ", "
      ++ toString (to255clamped (factor740 w) (rgbBase740 w).2.2) ++ ")"

/-- Claim C7: for every wavelength below 380 nm or above 740 nm the heuristic
colorizer returns the fixed neutral gray fallback string. -/
theorem heuristic_fallback_gray (w : ℝ) (h : w < 380 ∨ w > 740) :
    wavelengthToRGB w = "#888888" := by
  rw [wavelengthToRGB, if_pos h]

/-- Witness for C7 at 300 nm (UV) and 900 nm (IR). -/
theorem heuristic_fallback_gray_witness :
    wavelengthToRGB 300 = "#888888" ∧ wavelengthToRGB 900 = "#888888" :=
  ⟨heuristic_fallback_gray 300 (Or.inl (by norm_num)),
    heuristic_fallback_gray 900 (Or.inr (by norm_num))⟩

/-! ### Hex string encoding and well-formedness (claim C9) -/

/-- Hex digit characters as produced by JavaScript `toString(16)`: codes
48-57 are '0'-'9' and codes 87+10 to 87+15 are 'a'-'f'. -/
def hexChars : List Char :=
  (List.range 16).map (fun n => if n < 10 then Char.ofNat (48 + n) else Char.ofNat (87 + n))

/-- Digit-to-character mapping for base-16 printing. -/
def hexDigitChar (n : ℕ) : Char := hexChars.getD n '0'

/-- Hex digit list of a natural number, as JavaScript `toString(16)` prints
it (most significant digit first; 0 prints as "0"). -/
def natHexChars (n : ℕ) : List Char :=
  if _h : n < 16 then [hexDigitChar n]
  else natHexChars (n / 16) ++ [hexDigitChar (n % 16)]
decreasing_by exact Nat.div_lt_self (by omega) (by norm_num)

/-- JavaScript `v.toString(16)` for an integer (negative values get a minus
sign). -/
def intHexChars (v : ℤ) : List Char :=
  if v < 0 then '-' :: natHexChars (-v).toNat else natHexChars v.toNat

/-- JavaScript `.padStart(2, "0")` on a character list. -/
def padStart2 (l : List Char) : List Char :=
  List.replicate (2 - l.length) '0' ++ l

/-- One byte channel of the hex template: `v.toString(16).padStart(2, "0")`. -/
def byteHexChars (v : ℤ) : List Char := padStart2 (intHexChars v)

/-- `rgbToHex` of the source: `#` followed by the three padded hex bytes. -/
def rgbToHex (r g b : ℤ) : String :=
  String.mk ('#' :: (byteHexChars r ++ byteHexChars g ++ byteHexChars b))

/-- `nmToColor` of the source: `rgbToHex(wavelengthToSRGB(nm))`. -/
noncomputable def nmToColor (nm : ℝ) : String :=
  rgbToHex (wavelengthToSRGB nm).1 (wavelengthToSRGB nm).2.1
    (wavelengthToSRGB nm).2.2

/-- The hex output stage of `perceivedHex`: `#` plus `toHex` of each
companded channel, where `toHex(v) = round(min(255, max(0, v * 255)))`
printed as two padded lowercase hex digits. -/
noncomputable def perceivedHexString (R G B : ℝ) : String :=
  rgbToHex (toHexByte R) (toHexByte G) (toHexByte B)

/-- Lowercase hexadecimal digit test ('0'-'9' or 'a'-'f'). -/
def isLowerHexDigit (c : Char) : Bool :=
  (48 ≤ c.toNat && c.toNat ≤ 57) || (97 ≤ c.toNat && c.toNat ≤ 102)

/-- A well-formed display color string: exactly `#` plus six lowercase hex
digits. -/
def goodHexColor (s : String) : Prop :=
  s.data.length = 7 ∧ s.data.head? = some '#' ∧
    ∀ c ∈ s.data.tail, isLowerHexDigit c = true

lemma hexChars_all_good : ∀ c ∈ hexChars, isLowerHexDigit c = true := by decide

lemma hexDigitChar_good (n : ℕ) : isLowerHexDigit (hexDigitChar n) = true := by
  rw [hexDigitChar]
  by_cases h : n < hexChars.length
  · simp only [List.getD_eq_getElem?_getD, List.getElem?_eq_getElem h,
      Option.getD_some]
    exact hexChars_all_good _ (List.getElem_mem h)
  · simp only [List.getD_eq_getElem?_getD,
      List.getElem?_eq_none (by omega : hexChars.length ≤ n), Option.getD_none]
    rfl

lemma byteHexChars_good (v : ℤ) (h0 : 0 ≤ v) (h255 : v ≤ 255) :
    (byteHexChars v).length = 2 ∧
      ∀ c ∈ byteHexChars v, isLowerHexDigit c = true := by
  rw [byteHexChars, intHexChars, if_neg (by omega)]
  by_cases h16 : v.toNat < 16
  · rw [natHexChars, dif_pos h16]
    have hp : padStart2 [hexDigitChar v.toNat] = ['0', hexDigitChar v.toNat] := rfl
    rw [hp]
    refine ⟨rfl, ?_⟩
    intro c hc
    fin_cases hc
    · rfl
    · exact hexDigitChar_good _
  · have hdiv : v.toNat / 16 < 16 := by omega
    rw [natHexChars, dif_neg h16, natHexChars, dif_pos hdiv]
    have hp : padStart2 ([hexDigitChar (v.toNat / 16)] ++ [hexDigitChar (v.toNat % 16)])
        = [hexDigitChar (v.toNat / 16), hexDigitChar (v.toNat % 16)] := rfl
    rw [hp]
    refine ⟨rfl, ?_⟩
    intro c hc
    fin_cases hc
    · exact hexDigitChar_good _
    · exact hexDigitChar_good _

lemma rgbToHex_good (r g b : ℤ)
    (hr0 : 0 ≤ r) (hr1 : r ≤ 255) (hg0 : 0 ≤ g) (hg1 : g ≤ 255)
    (hb0 : 0 ≤ b) (hb1 : b ≤ 255) : goodHexColor (rgbToHex r g b) := by
  obtain ⟨hrl, hrc⟩ := byteHexChars_good r hr0 hr1
  obtain ⟨hgl, hgc⟩ := byteHexChars_good g hg0 hg1
  obtain ⟨hbl, hbc⟩ := byteHexChars_good b hb0 hb1
  refine ⟨?_, rfl, ?_⟩
  · show ('#' :: (byteHexChars r ++ byteHexChars g ++ byteHexChars b)).length = 7
    simp [hrl, hgl, hbl]
  · intro c hc
    replace hc : c ∈ byteHexChars r ++ byteHexChars g ++ byteHexChars b := hc
    rcases List.mem_append.mp hc with hc2 | hc3
    · rcases List.mem_append.mp hc2 with h | h
      · exact hrc c h
      · exact hgc c h
    · exact hbc c hc3

/-- Rounding of a real in [0, 255] lands in the byte range. -/
lemma round_byte_range {x : ℝ} (h0 : 0 ≤ x) (h255 : x ≤ 255) :
    0 ≤ round x ∧ round x ≤ 255 := by
  rw [round_eq]
  constructor
  · exact Int.le_floor.mpr (by push_cast; linarith)
  · have h := Int.floor_le_floor (α := ℝ) (show x + 1 / 2 ≤ 255 + 1 / 2 by linarith)
    have h2 : ⌊(255 : ℝ) + 1 / 2⌋ = 255 := by
      rw [Int.floor_eq_iff]
      constructor <;> norm_num
    omega

lemma toHexByte_range (v : ℝ) : 0 ≤ toHexByte v ∧ toHexByte v ≤ 255 := by
  rw [toHexByte]
  apply round_byte_range
  · exact le_min (by norm_num) (le_max_left _ _)
  · exact min_le_left _ _

lemma srgbFactor_le_one (nm : ℝ) : srgbFactor nm ≤ 1 := by
  rw [srgbFactor]
  split_ifs with h1 h2 h3
  · linarith [h1.1, h1.2]
  · exact le_refl 1
  · linarith [h3.1, h3.2]
  · norm_num

lemma srgbBase_le_one (nm : ℝ) :
    (srgbBase nm).1 ≤ 1 ∧ (srgbBase nm).2.1 ≤ 1 ∧ (srgbBase nm).2.2 ≤ 1 := by
  rw [srgbBase]
  split_ifs with h1 h2 h3 h4 h5 h6
  · refine ⟨?_, by norm_num, by norm_num⟩
    show -(nm - 440) / 60 ≤ 1
    linarith [h1.1]
  · refine ⟨by norm_num, ?_, by norm_num⟩
    show (nm - 440) / 50 ≤ 1
    linarith [h2.2]
  · refine ⟨by norm_num, by norm_num, ?_⟩
    show -(nm - 510) / 20 ≤ 1
    linarith [h3.1]
  · refine ⟨?_, by norm_num, by norm_num⟩
    show (nm - 510) / 70 ≤ 1
    linarith [h4.2]
  · refine ⟨by norm_num, ?_, by norm_num⟩
    show -(nm - 645) / 65 ≤ 1
    linarith [h5.1]
  · exact ⟨by norm_num, by norm_num, by norm_num⟩
  · exact ⟨by norm_num, by norm_num, by norm_num⟩

lemma srgbTo255_range (factor c : ℝ) (hc : c ≤ 1) (hf : factor ≤ 1) :
    0 ≤ srgbTo255 factor c ∧ srgbTo255 factor c ≤ 255 := by
  rw [srgbTo255]
  have hc0 : (0 : ℝ) ≤ max 0 c := le_max_left _ _
  have hf0 : (0 : ℝ) ≤ max 0 factor := le_max_left _ _
  have hbase0 : 0 ≤ max 0 c * max 0 factor := mul_nonneg hc0 hf0
  have hbase1 : max 0 c * max 0 factor ≤ 1 := by
    have h1 : max 0 c ≤ 1 := max_le zero_le_one hc
    have h2 : max 0 factor ≤ 1 := max_le zero_le_one hf
    nlinarith
  have hp0 : 0 ≤ (max 0 c * max 0 factor) ^ ((0.8 : ℝ)) :=
    Real.rpow_nonneg hbase0 _
  have hp1 : (max 0 c * max 0 factor) ^ ((0.8 : ℝ)) ≤ 1 :=
    Real.rpow_le_one hbase0 hbase1 (by norm_num)
  exact round_byte_range (by nlinarith) (by nlinarith)

/-- Claim C9: every display color emitted by either pipeline — the
tristimulus path's hex encoder on arbitrary real channel values and the
heuristic path's `rgbToHex` of `wavelengthToSRGB` at an arbitrary real
wavelength — is `#` plus exactly six lowercase zero-padded hex digits, with
every encoded byte in [0, 255]. -/
theorem display_colors_wellformed (R G B nm : ℝ) :
    goodHexColor (perceivedHexString R G B) ∧
    goodHexColor (nmToColor nm) ∧
    (0 ≤ toHexByte R ∧ toHexByte R ≤ 255) ∧
    (0 ≤ (wavelengthToSRGB nm).1 ∧ (wavelengthToSRGB nm).1 ≤ 255) ∧
    (0 ≤ (wavelengthToSRGB nm).2.1 ∧ (wavelengthToSRGB nm).2.1 ≤ 255) ∧
    (0 ≤ (wavelengthToSRGB nm).2.2 ∧ (wavelengthToSRGB nm).2.2 ≤ 255) := by
  have hR := toHexByte_range R
  have hG := toHexByte_range G
  have hB := toHexByte_range B
  have hb := srgbBase_le_one nm
  have hf := srgbFactor_le_one nm
  have h1 := srgbTo255_range (srgbFactor nm) (srgbBase nm).1 hb.1 hf
  have h2 := srgbTo255_range (srgbFactor nm) (srgbBase nm).2.1 hb.2.1 hf
  have h3 := srgbTo255_range (srgbFactor nm) (srgbBase nm).2.2 hb.2.2 hf
  exact ⟨rgbToHex_good _ _ _ hR.1 hR.2 hG.1 hG.2 hB.1 hB.2,
    rgbToHex_good _ _ _ h1.1 h1.2 h2.1 h2.2 h3.1 h3.2, hR, h1, h2, h3⟩

end Polyene
